import Mathlib

/-!
Shallow embedding of the image-normalization core of `src/main.rs` (vlc-print):
the row scanner `row_bounds`, the border scanner `auto_crop` (together with the
`image` crate's `imageops::crop`, which it calls), and the brightness remap
`auto_brighten`.

Pixels are 3-channel 8-bit RGB values; the program at its single call site
(`go`) runs on `into_rgb8()` buffers, so pixels are modelled as triples of
naturals.  A row is a `List Rgb`, read left to right, exactly the order in
which the Rust `Pixels` iterator yields pixels; an image seen by the scanner
is a `List (List Rgb)` of rows, top to bottom, the order of the `Rows`
iterator.  `u32` subtraction is modelled explicitly (`u32sub`) so that
wrap-around of `right_crop - left_crop` is visible.  The `f32` arithmetic of
`auto_brighten` is modelled exactly, as IEEE-754 binary32 round-to-nearest,
ties-to-even, over scaled naturals.
-/

set_option linter.unusedVariables false

/-- One RGB pixel, each channel an 8-bit value held as a `Nat`. -/
structure Rgb where
  r : Nat
  g : Nat
  b : Nat
deriving DecidableEq

/-- Luma of a pixel as computed by the `image` crate's `Pixel::to_luma` for
`Rgb<u8>`: the fixed perceptual weighting `(2126*r + 7152*g + 722*b) / 10000`
in integer arithmetic.  Every concrete image below uses only the pure black
pixel `(0,0,0)` (luma `0`) and the pure white pixel `(255,255,255)` (luma
`255`), whose classification against the threshold `16` is the same under
every historical luma formula of the crate; the general theorems constrain
`toLuma` only through hypotheses. -/
def toLuma (p : Rgb) : Nat := (2126 * p.r + 7152 * p.g + 722 * p.b) / 10000

/-- The background test `p.to_luma()[0] < 16` of `row_bounds` (src/main.rs
lines 44, 53, 61). -/
def isBg (p : Rgb) : Bool := toLuma p < 16

/-- Pure black pixel. -/
def black : Rgb := ⟨0, 0, 0⟩

/-- Pure white pixel. -/
def white : Rgb := ⟨255, 255, 255⟩

/-- First segment of `row_bounds` (lines 43-46): `while let Some(true) =
row.next().map(|p| p.to_luma()[0] < 16) { left_bound += 1 }`.  Each call to
`next()` consumes a pixel, including the non-background pixel whose test
fails and ends the loop; that pixel is removed from the returned remainder
without being counted. -/
def leadLoop : List Rgb → Nat × List Rgb
  | [] => (0, [])
  | p :: rest =>
    if isBg p then
      let s := leadLoop rest
      (s.1 + 1, s.2)
    else (0, rest)

/-- Inner loop of `row_bounds` consuming a run of non-background pixels
(lines 52-55): `while let Some(false) = row.next().map(...) { cursor += 1 }`.
The background pixel that ends the run is consumed without incrementing the
cursor. -/
def fgLoop : Nat → List Rgb → Nat × List Rgb
  | c, [] => (c, [])
  | c, p :: rest => if isBg p then (c, rest) else fgLoop (c + 1) rest

/-- Inner loop of `row_bounds` consuming a run of background pixels
(lines 60-63): `while let Some(true) = row.next().map(...) { cursor += 1 }`.
The non-background pixel that ends the run is consumed without incrementing
the cursor. -/
def bgLoop : Nat → List Rgb → Nat × List Rgb
  | c, [] => (c, [])
  | c, p :: rest => if isBg p then bgLoop (c + 1) rest else (c, rest)

/-- Outer loop of `row_bounds` (lines 51-64): while pixels remain, consume a
non-background run, record the cursor as the current `right_bound`, then
consume a background run.  Arguments: cursor, current right bound, remaining
pixels. -/
def outerLoop (c rb : Nat) (l : List Rgb) : Nat :=
  match l with
  | [] => rb
  | a :: rest =>
    outerLoop (bgLoop (fgLoop c (a :: rest)).1 (fgLoop c (a :: rest)).2).1
      (fgLoop c (a :: rest)).1
      (bgLoop (fgLoop c (a :: rest)).1 (fgLoop c (a :: rest)).2).2
termination_by l.length
decreasing_by
  have hfg : ∀ (n : Nat) (t : List Rgb), (fgLoop n t).2.length ≤ t.length := by
    intro n t
    induction t generalizing n with
    | nil => simp [fgLoop]
    | cons p tl ih =>
      simp only [fgLoop]
      split
      · simp
      · exact le_trans (ih _) (Nat.le_succ _)
  have hbg : ∀ (n : Nat) (t : List Rgb), (bgLoop n t).2.length ≤ t.length := by
    intro n t
    induction t generalizing n with
    | nil => simp [bgLoop]
    | cons p tl ih =>
      simp only [bgLoop]
      split
      · exact le_trans (ih _) (Nat.le_succ _)
      · simp
  have hlt : ∀ (n : Nat) (p : Rgb) (t : List Rgb),
      (fgLoop n (p :: t)).2.length < (p :: t).length := by
    intro n p t
    simp only [fgLoop]
    split
    · simp
    · exact Nat.lt_succ_of_le (hfg _ _)
  exact lt_of_le_of_lt (hbg _ _) (hlt _ _ _)

/-- The function `row_bounds` (src/main.rs lines 38-67): guess the
`(left, right)` endpoints of the image content of one row.  It counts the
leading background pixels into the left bound, then alternately consumes
non-background and background runs, recording the cursor after each
non-background run as the right bound. -/
def row_bounds (row : List Rgb) : Nat × Nat :=
  let s := leadLoop row
  (s.1, outerLoop s.1 0 s.2)

/-- First column segment of `auto_crop` (lines 83-85): `while let Some(true) =
rows.next().map(|r| row_bounds(r).0 == img_width) { top_crop += 1 }`.  The
row whose test fails (the first content row) is consumed, and its row bounds
are discarded. -/
def topLoop (w : Nat) : List (List Rgb) → Nat × List (List Rgb)
  | [] => (0, [])
  | r :: rest =>
    if (row_bounds r).1 = w then
      let s := topLoop w rest
      (s.1 + 1, s.2)
    else (0, rest)

/-- Inner loop of `auto_crop` consuming a segment of non-background rows
(lines 91-106): for each row compute `row_bounds`, fold its right bound into
`right_crop` by max and its left bound into `left_crop` by min, increment the
cursor, and break once a fully-background row (left bound equal to the image
width) is seen.  Arguments: `right_crop`, `left_crop`, cursor, remaining
rows; result: the updated triple plus the remaining rows. -/
def innerLoop (w : Nat) : Nat → Nat → Nat → List (List Rgb) → Nat × Nat × Nat × List (List Rgb)
  | rc, lc, c, [] => (rc, lc, c, [])
  | rc, lc, c, r :: rest =>
    let rb := row_bounds r
    let rc' := if rc < rb.2 then rb.2 else rc
    let lc' := if rb.1 < lc then rb.1 else lc
    if rb.1 = w then (rc', lc', c + 1, rest)
    else innerLoop w rc' lc' (c + 1) rest

/-- Loop of `auto_crop` consuming a segment of background rows
(lines 112-114).  The row that ends the loop (the first content row of the
next band) is consumed without incrementing the cursor and its bounds are
discarded. -/
def bgRowsLoop (w : Nat) : Nat → List (List Rgb) → Nat × List (List Rgb)
  | c, [] => (c, [])
  | c, r :: rest => if (row_bounds r).1 = w then bgRowsLoop w (c + 1) rest else (c, rest)

/-- Outer loop of `auto_crop` (lines 89-115): while rows remain, run the
content-rows loop, record the cursor as `bot_crop`, then skip a run of
background rows.  Arguments: `right_crop`, `left_crop`, `bot_crop`, cursor,
remaining rows; result `(right_crop, left_crop, bot_crop)`. -/
def outerRows (w rc lc bot c : Nat) (l : List (List Rgb)) : Nat × Nat × Nat :=
  match l with
  | [] => (rc, lc, bot)
  | a :: rest =>
    outerRows w (innerLoop w rc lc c (a :: rest)).1 (innerLoop w rc lc c (a :: rest)).2.1
      (innerLoop w rc lc c (a :: rest)).2.2.1
      (bgRowsLoop w (innerLoop w rc lc c (a :: rest)).2.2.1
        (innerLoop w rc lc c (a :: rest)).2.2.2).1
      (bgRowsLoop w (innerLoop w rc lc c (a :: rest)).2.2.1
        (innerLoop w rc lc c (a :: rest)).2.2.2).2
termination_by l.length
decreasing_by
  have hinner : ∀ (rc lc c : Nat) (t : List (List Rgb)),
      (innerLoop w rc lc c t).2.2.2.length ≤ t.length := by
    intro rc lc c t
    induction t generalizing rc lc c with
    | nil => simp [innerLoop]
    | cons r tl ih =>
      simp only [innerLoop]
      split
      · simp
      · exact le_trans (ih _ _ _) (Nat.le_succ _)
  have hbgr : ∀ (c : Nat) (t : List (List Rgb)), (bgRowsLoop w c t).2.length ≤ t.length := by
    intro c t
    induction t generalizing c with
    | nil => simp [bgRowsLoop]
    | cons r tl ih =>
      simp only [bgRowsLoop]
      split
      · exact le_trans (ih _) (Nat.le_succ _)
      · simp
  have hlt : ∀ (rc lc c : Nat) (r : List Rgb) (t : List (List Rgb)),
      (innerLoop w rc lc c (r :: t)).2.2.2.length < (r :: t).length := by
    intro rc lc c r t
    simp only [innerLoop]
    split
    · simp
    · exact Nat.lt_succ_of_le (hinner _ _ _ _)
  exact lt_of_le_of_lt (hbgr _ _) (hlt _ _ _ _ _)

/-- The scanning phase of `auto_crop` (src/main.rs lines 74-115), returning
the raw accumulators `(left_crop, top_crop, right_crop, bot_crop)`:
`left_crop` starts at the image width, `right_crop`, `top_crop` and
`bot_crop` start at `0`, the leading fully-background rows are counted into
`top_crop`, and the outer loop then alternates content segments and
background segments.  The inner-loop cursor starts at `top_crop`
(line 88). -/
def auto_crop_raw (rows : List (List Rgb)) (w : Nat) : Nat × Nat × Nat × Nat :=
  let t := topLoop w rows
  let o := outerRows w 0 w 0 t.1 t.2
  (o.2.1, t.1, o.1, o.2.2)

/-- Wrapping `u32` subtraction, the release-mode semantics of `a - b` on
`u32`; with overflow checks enabled the same subtraction panics whenever
`b > a`. -/
def u32sub (a b : Nat) : Nat := (a + 4294967296 - b) % 4294967296

/-- The four arguments `(x, y, width, height)` that `auto_crop` passes to
`imageops::crop` (lines 117-123): `(left_crop, top_crop,
right_crop - left_crop, bot_crop - top_crop)`, the subtractions performed on
`u32`. -/
def auto_crop_call (rows : List (List Rgb)) (w : Nat) : Nat × Nat × Nat × Nat :=
  let r := auto_crop_raw rows w
  (r.1, r.2.1, u32sub r.2.2.1 r.1, u32sub r.2.2.2 r.2.1)

/-- The clamping `crop_dimms` performed by the `image` crate's
`imageops::crop` on its rectangle arguments before taking the sub-view:
`x = min(x, width)`, `y = min(y, height)`, `height = min(height, iheight - y)`,
`width = min(width, iwidth - x)`. -/
def crop_dimms (iw ih x y w h : Nat) : Nat × Nat × Nat × Nat :=
  (min x iw, min y ih, min w (iw - min x iw), min h (ih - min y ih))

/-- The final rectangle `(x, y, width, height)` selected by `auto_crop`
through `imageops::crop`: the raw call arguments after `crop_dimms`
clamping. -/
def auto_crop (rows : List (List Rgb)) (w : Nat) : Nat × Nat × Nat × Nat :=
  let c := auto_crop_call rows w
  crop_dimms w rows.length c.1 c.2.1 c.2.2.1 c.2.2.2

/-- An owned pixel buffer: `width * height` pixels in row-major order, top to
bottom and left to right, the layout of the `image` crate's
`ImageBuffer`. -/
structure Img where
  width : Nat
  height : Nat
  data : List Rgb
deriving DecidableEq

/-- Pixel of a buffer at column `x`, row `y` through its row-major index
`y * width + x`; out-of-range reads default to black (never exercised under
the buffer invariant `data.length = width * height`). -/
def Img.pix (img : Img) (x y : Nat) : Rgb :=
  (img.data.get? (y * img.width + x)).getD ⟨0, 0, 0⟩

/-- The copy performed by `SubImage::to_image` on an already-clamped
rectangle of the source: a fresh `w × h` buffer whose pixel `(i, j)` is the
source pixel `(x + i, y + j)`, row-major. -/
def crop_core (img : Img) (x y w h : Nat) : Img :=
  { width := w, height := h,
    data := (List.range (w * h)).map fun k => img.pix (x + k % w) (y + k / w) }

/-- The crop operation the pipeline applies at `go` (line 214):
`imageops::crop` followed by `to_image()`.  The rectangle is first clamped by
`crop_dimms`; no error is ever reported. -/
def crop (img : Img) (x y w h : Nat) : Img :=
  crop_core img (min x img.width) (min y img.height)
    (min w (img.width - min x img.width)) (min h (img.height - min y img.height))

/-- Membership of the pixel position `(px, py)` in the half-open rectangle
with the given left, top, width and height. -/
def inRect (px py left top w h : Nat) : Prop :=
  left ≤ px ∧ px < left + w ∧ top ≤ py ∧ py < top + h

/-- The 4 × 2 image whose two rows are black, white, white, black. -/
def img_c1 : List (List Rgb) := [[black, white, white, black], [black, white, white, black]]

/-- The 1 × 1 all-black image. -/
def img_c2 : List (List Rgb) := [[black]]

/-- The 4 × 4 image with a one-pixel black border around a 2 × 2 white
square. -/
def img_c5 : List (List Rgb) :=
  [[black, black, black, black],
   [black, white, white, black],
   [black, white, white, black],
   [black, black, black, black]]

/-- The 2 × 2 all-white image. -/
def img_c6 : List (List Rgb) := [[white, white], [white, white]]

/-- The 4-wide image with two white bands (rows 0-1 and 3-4, each row black,
white, white, black) separated and followed by fully-black rows 2 and 5. -/
def img_c7 : List (List Rgb) :=
  [[black, white, white, black],
   [black, white, white, black],
   [black, black, black, black],
   [black, white, white, black],
   [black, white, white, black],
   [black, black, black, black]]

/-- Binade locator for the factor: the unique `t` with
`255 ≤ m * 2 ^ t < 510`, i.e. `m / 255 ∈ [2 ^ (-t), 2 ^ (1 - t))`, for
`1 ≤ m ≤ 255`. -/
def fexp (m : Nat) : Nat :=
  if 255 ≤ m then 0
  else if 128 ≤ m then 1
  else if 64 ≤ m then 2
  else if 32 ≤ m then 3
  else if 16 ≤ m then 4
  else if 8 ≤ m then 5
  else if 4 ≤ m then 6
  else if 2 ≤ m then 7
  else 8

/-- Number of bits by which a product mantissa `p < 2 ^ 32` exceeds 24 bits:
the unique `s` with `2 ^ (23 + s) ≤ p < 2 ^ (24 + s)` (and `0` when `p`
already fits in 24 bits). -/
def pshift (p : Nat) : Nat :=
  if p < 16777216 then 0
  else if p < 33554432 then 1
  else if p < 67108864 then 2
  else if p < 134217728 then 3
  else if p < 268435456 then 4
  else if p < 536870912 then 5
  else if p < 1073741824 then 6
  else if p < 2147483648 then 7
  else 8

/-- Truncated result of the second `f32` rounding: given the factor
significand `mant` (24 bits, value `mant / 2 ^ (23 + t)`) and a channel
complement `a = 255 - c` with `a ≥ 1`, compute
`((a as f32) * factor) as u8`: the product significand `p = a * mant` is
rounded to 24 bits (round-to-nearest, ties-to-even via `q + q % 2`) and the
resulting value `mp * 2 ^ (s - 23 - t)` is truncated toward zero, which for
these nonnegative values is floor division. -/
def prodTrunc (t mant a : Nat) : Nat :=
  let p := a * mant
  let s := pshift p
  if s = 0 then p / 2 ^ (23 + t)
  else
    let q := p / 2 ^ s
    let r := p % 2 ^ s
    let half := 2 ^ (s - 1)
    let mp := if half < r then q + 1 else if r < half then q else q + q % 2
    mp / 2 ^ (23 + t - s)

/-- Exact model of one channel update of `auto_brighten` (src/main.rs lines
126-140): `255 - ((255 - c) as f32 * factor) as u8` with
`factor = (255 - luma) as f32 / 255.0`, every `f32` operation IEEE-754
binary32 round-to-nearest, ties-to-even.

With `m = 255 - luma`: when `m = 0` the factor is exactly `0.0`, the product
is `0.0`, the cast yields `0` and the channel becomes `255`.  Otherwise the
division result is `mant / 2 ^ (23 + t)` with `t = fexp m` and `mant` the
24-bit significand `m * 2 ^ (23 + t) / 255` rounded to nearest (a tie is
impossible: `2 * m * 2 ^ (23 + t)` is even while an exact tie would force it
congruent to the odd `255` modulo `510`, so adding half before dividing
equals round-to-nearest-even here).  When `255 - c = 0` the product is
exactly `0.0` and the channel becomes `255`; otherwise the product is
rounded and truncated by `prodTrunc`. -/
def scaleChannel (luma c : Nat) : Nat :=
  let m := 255 - luma
  if m = 0 then 255
  else
    let t := fexp m
    let mant := (2 * (m * 2 ^ (23 + t)) + 255) / 510
    if 255 - c = 0 then 255
    else 255 - prodTrunc t mant (255 - c)

/-- Reference channel remap stated by the specification:
`255 - floor((255 - c) * (255 - lumaOffset) / 255)` with the fractional
product truncated toward zero. -/
def specChannel (luma c : Nat) : Nat := 255 - ((255 - c) * (255 - luma)) / 255

/-- Forcing combinator: `nlet n k` equals `k n` but pattern-matches on `n`
first, so that term-level evaluation materializes `n` once instead of
re-evaluating it at every use site.  Used only to make the exhaustive
checks below feasible for the kernel. -/
def nlet (n : Nat) (k : Nat → Nat) : Nat :=
  match n with
  | 0 => k 0
  | m + 1 => k (m + 1)

/-- Bool-valued version of the forcing combinator `nlet`. -/
def nletB (n : Nat) (k : Nat → Bool) : Bool :=
  match n with
  | 0 => k 0
  | m + 1 => k (m + 1)

/-- Evaluation-friendly reformulation of `prodTrunc` with every intermediate
forced through `nlet`; proven equal to `prodTrunc` pointwise. -/
def prodTruncFast (t mant a : Nat) : Nat :=
  nlet (a * mant) fun p =>
  nlet (pshift p) fun s =>
  if s = 0 then p / 2 ^ (23 + t)
  else
    nlet (p / 2 ^ s) fun q =>
    nlet (p % 2 ^ s) fun r =>
    nlet (2 ^ (s - 1)) fun half =>
    nlet (if half < r then q + 1 else if r < half then q else q + q % 2) fun mp =>
    mp / 2 ^ (23 + t - s)

/-- One cell of the exhaustive check for the divisible pairs: the rounded
`f32` channel computation against the reference `a * m / 255` for
`a = 255 - c` and `m = 255 - luma`. -/
def chkPair (a m : Nat) : Bool :=
  nletB (fexp m) fun t =>
  nletB ((2 * (m * 2 ^ (23 + t)) + 255) / 510) fun mant =>
  prodTruncFast t mant a == a * m / 255

/-- Check `chkPair a (k * d)` for every `k` in `[1, n]`. -/
def chkDivRow (a d : Nat) : Nat → Bool
  | 0 => true
  | k + 1 => chkPair a ((k + 1) * d) && chkDivRow a d k

/-- Check `chkPair a m` for every `a` in `[1, n]` and every multiple `m` of
`255 / gcd a 255` up to `255` — exactly the pairs whose exact product
`a * m` is a multiple of `255`, the only pairs at which the two `f32`
roundings could cross an integer. -/
def chkDivAll : Nat → Bool
  | 0 => true
  | a + 1 => chkDivRow (a + 1) (255 / Nat.gcd (a + 1) 255) (Nat.gcd (a + 1) 255) && chkDivAll a

/-- One pixel update of `auto_brighten`: the same channel remap applied to
each of the three channels independently (the `channels_mut` flat map of
lines 136-139). -/
def scalePixel (luma : Nat) (p : Rgb) : Rgb :=
  ⟨scaleChannel luma p.r, scaleChannel luma p.g, scaleChannel luma p.b⟩

/-- The function `auto_brighten` (src/main.rs lines 126-140): remap every
channel of every pixel in place, leaving the buffer dimensions untouched. -/
def auto_brighten (img : Img) (luma : Nat) : Img :=
  { img with data := img.data.map (scalePixel luma) }

theorem isBg_black : isBg black = true := rfl

theorem isBg_white : isBg white = false := rfl

/-- Claim C8: a row consisting entirely of background pixels (luma below 16)
is reported by `row_bounds` as the sentinel pair `(w, 0)`: the left bound
equals the row width and the right bound stays `0`. -/
theorem c8_background_row_sentinel (row : List Rgb) (h : ∀ p ∈ row, toLuma p < 16) :
    row_bounds row = (row.length, 0) := by
  have hlead : ∀ (l : List Rgb), (∀ p ∈ l, toLuma p < 16) → leadLoop l = (l.length, []) := by
    intro l hl
    induction l with
    | nil => rfl
    | cons a rest ih =>
      have ha : isBg a = true := by
        simp only [isBg, decide_eq_true_eq]
        exact hl a (List.mem_cons_self a rest)
      simp [leadLoop, ha, ih (fun p hp => hl p (List.mem_cons_of_mem a hp))]
  simp [row_bounds, hlead row h, outerLoop]

/-- Witness for C8 at the concrete all-black row of width 2. -/
theorem c8_background_row_sentinel_witness : row_bounds [black, black] = (2, 0) :=
  c8_background_row_sentinel [black, black] (by decide)

/-- Claim C1 fails on the code: on the 4 × 2 buffer `img_c1` every white
pixel is non-background, yet `auto_crop` selects the rectangle
`(left 1, top 0, width 1, height 1)`, which excludes the non-background
pixel at `(2, 0)` (and the whole second row).  Cause: `row_bounds` consumes
the pixel that ends each `while let` run without counting it, so the right
bound it returns is the inclusive index of the last content pixel of a run,
one short of the exclusive bound the subtraction `right_crop - left_crop`
needs; `auto_crop`'s top loop likewise consumes the first content row and
discards its bounds. -/
theorem c1_crop_rect_excludes_content :
    auto_crop img_c1 4 = (1, 0, 1, 1) ∧
    ((img_c1.get? 0).getD []).get? 2 = some white ∧
    isBg white = false ∧ ¬ inRect 2 0 1 0 1 1 := by
  refine ⟨?_, by decide, rfl, by simp [inRect]⟩
  simp [auto_crop, auto_crop_call, auto_crop_raw, crop_dimms, topLoop, innerLoop, bgRowsLoop,
    outerRows, row_bounds, leadLoop, fgLoop, bgLoop, outerLoop, isBg_black, isBg_white,
    u32sub, img_c1]

/-- Claim C2 fails on the code: on the all-background 1 × 1 buffer `img_c2`
the scan ends with `left_crop = 1 > right_crop = 0` and
`top_crop = 1 > bot_crop = 0`, and `auto_crop` has no error channel at all.
It computes the width `right_crop - left_crop` and height
`bot_crop - top_crop` on `u32` anyway: with overflow checks this subtraction
panics, in release mode it wraps to `4294967295`, after which
`imageops::crop` clamps the rectangle to the degenerate `(1, 1, 0, 0)`.  No
"no content found" condition is ever reported. -/
theorem c2_all_background_underflow :
    auto_crop_raw img_c2 1 = (1, 1, 0, 0) ∧
    auto_crop_call img_c2 1 = (1, 1, 4294967295, 4294967295) ∧
    auto_crop img_c2 1 = (1, 1, 0, 0) := by
  refine ⟨?_, ?_, ?_⟩ <;>
  simp [auto_crop, auto_crop_call, auto_crop_raw, crop_dimms, topLoop, innerLoop, bgRowsLoop,
    outerRows, row_bounds, leadLoop, fgLoop, bgLoop, outerLoop, isBg_black, u32sub, img_c2]

/-- Claim C5 fails on the code: for the 4 × 4 buffer `img_c5` with a
one-pixel black border (`b = 1`) around a 2 × 2 white square, the claim
expects `(left 1, top 1, width 2, height 2)`, but `auto_crop` returns width
`1 = W - 2b - 1`: the height is correct while the width is one short,
because `row_bounds` returns the inclusive right index (see C1) while the
row-level cursor of `auto_crop` counts the breaking row before testing
it. -/
theorem c5_border_crop_width_short :
    auto_crop img_c5 4 = (1, 1, 1, 2) ∧ (1, 1, 1, 2) ≠ ((1, 1, 2, 2) : Nat × Nat × Nat × Nat) := by
  refine ⟨?_, by decide⟩
  simp [auto_crop, auto_crop_call, auto_crop_raw, crop_dimms, topLoop, innerLoop, bgRowsLoop,
    outerRows, row_bounds, leadLoop, fgLoop, bgLoop, outerLoop, isBg_black, isBg_white,
    u32sub, img_c5]

/-- Claim C6 fails on the code: on the all-foreground 2 × 2 buffer `img_c6`
the claim expects the full image `(0, 0, 2, 2)`, but `auto_crop` returns
`(0, 0, 1, 1)`, cutting off the rightmost column and bottom row: the first
content row is consumed by the top loop with its bounds discarded, and the
right bound of each row is the inclusive index `1`, not the width `2`. -/
theorem c6_all_foreground_crop_shrinks :
    auto_crop img_c6 2 = (0, 0, 1, 1) ∧ (0, 0, 1, 1) ≠ ((0, 0, 2, 2) : Nat × Nat × Nat × Nat) := by
  refine ⟨?_, by decide⟩
  simp [auto_crop, auto_crop_call, auto_crop_raw, crop_dimms, topLoop, innerLoop, bgRowsLoop,
    outerRows, row_bounds, leadLoop, fgLoop, bgLoop, outerLoop, isBg_black, isBg_white,
    u32sub, img_c6]

/-- Claim C7 fails on the code: for `img_c7` (two white bands, rows 0-1 and
3-4, columns 1-2, separated by fully-black rows) the claim expects the union
rectangle `(left 1, top 0, width 2, height 5)` spanning from the top of the
first band to the bottom of the second, but `auto_crop` returns
`(1, 0, 1, 4)`: the width is one short (see C1), and the bottom is one short
as well because `bgRowsLoop` consumes the first row of the second band
without incrementing the row cursor, leaving `bot_crop` at 4 instead of
5. -/
theorem c7_two_bands_crop_short :
    auto_crop img_c7 4 = (1, 0, 1, 4) ∧ (1, 0, 1, 4) ≠ ((1, 0, 2, 5) : Nat × Nat × Nat × Nat) := by
  refine ⟨?_, by decide⟩
  simp [auto_crop, auto_crop_call, auto_crop_raw, crop_dimms, topLoop, innerLoop, bgRowsLoop,
    outerRows, row_bounds, leadLoop, fgLoop, bgLoop, outerLoop, isBg_black, isBg_white,
    u32sub, img_c7]

/-- Claim C3's error requirement fails on the code: cropping the 1 × 1 buffer
with the out-of-bounds rectangle `(0, 0, 2, 1)` does not report any error —
`imageops::crop` silently clamps the rectangle and returns a normal 1 × 1
buffer, whose width differs from the requested 2. -/
theorem c3_crop_out_of_bounds_no_error :
    crop ⟨1, 1, [white]⟩ 0 0 2 1 = ⟨1, 1, [white]⟩ ∧ ¬ (0 + 2 ≤ 1) := by
  refine ⟨by decide, by decide⟩

/-- Claim C3 as amended: the crop operation never reports an error; its
rectangle is first clamped by `crop_dimms`, and for every rectangle that
does fit (including zero-size ones) the result is a fresh buffer with
exactly the rectangle's dimensions whose pixel `(i, j)` equals the source
pixel `(x + i, y + j)`. -/
theorem c3_crop_clamped_subimage (img : Img) (x y w h : Nat)
    (hx : x + w ≤ img.width) (hy : y + h ≤ img.height) :
    (crop img x y w h).width = w ∧ (crop img x y w h).height = h ∧
    (crop img x y w h).data.length = w * h ∧
    ∀ i j, i < w → j < h → (crop img x y w h).pix i j = img.pix (x + i) (y + j) := by
  have hxw : min x img.width = x := Nat.min_eq_left (by omega)
  have hyh : min y img.height = y := Nat.min_eq_left (by omega)
  have hcrop : crop img x y w h = crop_core img x y w h := by
    unfold crop
    rw [hxw, hyh, Nat.min_eq_left (by omega), Nat.min_eq_left (by omega)]
  rw [hcrop]
  refine ⟨rfl, rfl, by simp [crop_core], ?_⟩
  intro i j hi hj
  have hw : 0 < w := Nat.pos_of_ne_zero (by omega)
  have hidx : j * w + i < w * h := by
    calc j * w + i < j * w + w := by omega
      _ = (j + 1) * w := by ring
      _ ≤ h * w := Nat.mul_le_mul_right w (by omega)
      _ = w * h := Nat.mul_comm h w
  have hmod : (j * w + i) % w = i := by
    rw [Nat.add_comm, Nat.mul_comm, Nat.add_mul_mod_self_left]
    exact Nat.mod_eq_of_lt hi
  have hdiv : (j * w + i) / w = j := by
    rw [Nat.add_comm, Nat.mul_comm, Nat.add_mul_div_left _ _ hw, Nat.div_eq_of_lt hi]
    omega
  simp only [crop_core, Img.pix, List.get?_map, List.get?_range hidx, Option.map_some',
    Option.getD_some, hmod, hdiv]

/-- Witness for C3's amended theorem: cropping the column `x = 1` out of a
concrete 2 × 2 buffer reproduces the source pixel at `(1, 1)`. -/
theorem c3_crop_clamped_subimage_witness :
    (crop ⟨2, 2, [⟨1, 2, 3⟩, ⟨4, 5, 6⟩, ⟨7, 8, 9⟩, ⟨10, 11, 12⟩]⟩ 1 0 1 2).pix 0 1 =
      (⟨2, 2, [⟨1, 2, 3⟩, ⟨4, 5, 6⟩, ⟨7, 8, 9⟩, ⟨10, 11, 12⟩]⟩ : Img).pix (1 + 0) (0 + 1) :=
  (c3_crop_clamped_subimage ⟨2, 2, [⟨1, 2, 3⟩, ⟨4, 5, 6⟩, ⟨7, 8, 9⟩, ⟨10, 11, 12⟩]⟩ 1 0 1 2
    (by decide) (by decide)).2.2.2 0 1 (by decide) (by decide)

theorem nlet_eq (n : Nat) (k : Nat → Nat) : nlet n k = k n := by
  cases n <;> rfl

theorem nletB_eq (n : Nat) (k : Nat → Bool) : nletB n k = k n := by
  cases n <;> rfl

theorem prodTruncFast_eq (t mant a : Nat) : prodTruncFast t mant a = prodTrunc t mant a := by
  simp only [prodTruncFast, nlet_eq]
  rfl

theorem chkPair_eq (a m : Nat) : chkPair a m =
    (prodTrunc (fexp m) ((2 * (m * 2 ^ (23 + fexp m)) + 255) / 510) a == a * m / 255) := by
  simp only [chkPair, nletB_eq, prodTruncFast_eq]

set_option maxRecDepth 10000 in
theorem fexp_bounds : ∀ m : Nat, m < 256 → 1 ≤ m → 255 ≤ m * 2 ^ fexp m ∧ m * 2 ^ fexp m < 510 := by
  decide

theorem pshift_cases (p : Nat) (h32 : p < 4294967296) :
    (pshift p = 0 ∧ p < 16777216) ∨
    (1 ≤ pshift p ∧ pshift p ≤ 8 ∧ 2 ^ (23 + pshift p) ≤ p ∧ p < 2 ^ (24 + pshift p)) := by
  unfold pshift
  split_ifs with h1 h2 h3 h4 h5 h6 h7 h8
  · exact Or.inl ⟨rfl, h1⟩
  · right; norm_num; omega
  · right; norm_num; omega
  · right; norm_num; omega
  · right; norm_num; omega
  · right; norm_num; omega
  · right; norm_num; omega
  · right; norm_num; omega
  · right; norm_num; omega

/-- Main rounding-error bound: when the exact product `a * m` is not a
multiple of `255`, the accumulated error of the two `f32` roundings is
strictly below the distance to the nearest integer, so the truncated result
equals the exact floor `a * m / 255`. -/
theorem prodTrunc_eq_of_ndvd (t mant a m : Nat)
    (ha1 : 1 ≤ a) (ha2 : a ≤ 255) (hm1 : 1 ≤ m)
    (hY1 : 255 ≤ m * 2 ^ t) (hY2 : m * 2 ^ t < 510)
    (hmant : mant = (2 * (m * 2 ^ (23 + t)) + 255) / 510)
    (hnd : a * m % 255 ≠ 0) :
    prodTrunc t mant a = a * m / 255 := by
  have h23 : (2 : Nat) ^ 23 = 8388608 := by norm_num
  have hpowE : (2 : Nat) ^ (23 + t) = 8388608 * 2 ^ t := by rw [pow_add, h23]
  have hYX : 2 * (m * 2 ^ (23 + t)) + 255 = 16777216 * (m * 2 ^ t) + 255 := by
    rw [hpowE]; ring
  rw [hYX] at hmant
  have hE1 : 1 ≤ 2 ^ t := Nat.one_le_two_pow
  have hE2 : 2 ^ t ≤ m * 2 ^ t := Nat.le_mul_of_pos_left _ (by omega)
  have hRlt : a * m % 255 < 255 := Nat.mod_lt _ (by norm_num)
  have hvQR : 255 * (a * m / 255) + a * m % 255 = a * m := Nat.div_add_mod (a * m) 255
  have hmb1 : 8388608 ≤ mant := by omega
  have hmb2 : mant < 16777216 := by omega
  have hd1 : 255 * mant ≤ 8388608 * (m * 2 ^ t) + 127 := by omega
  have hd2 : 8388608 * (m * 2 ^ t) ≤ 255 * mant + 127 := by omega
  have hP1 : 255 * (a * mant) ≤ 8388608 * (a * m * 2 ^ t) + 127 * a := by
    calc 255 * (a * mant) = a * (255 * mant) := by ring
      _ ≤ a * (8388608 * (m * 2 ^ t) + 127) := Nat.mul_le_mul_left a hd1
      _ = 8388608 * (a * m * 2 ^ t) + 127 * a := by ring
  have hP2 : 8388608 * (a * m * 2 ^ t) ≤ 255 * (a * mant) + 127 * a := by
    calc 8388608 * (a * m * 2 ^ t) = a * (8388608 * (m * 2 ^ t)) := by ring
      _ ≤ a * (255 * mant + 127) := Nat.mul_le_mul_left a hd2
      _ = 255 * (a * mant) + 127 * a := by ring
  have hvE : a * m * 2 ^ t = 255 * (a * m / 255 * 2 ^ t) + a * m % 255 * 2 ^ t := by
    calc a * m * 2 ^ t = (255 * (a * m / 255) + a * m % 255) * 2 ^ t := by rw [hvQR]
      _ = 255 * (a * m / 255 * 2 ^ t) + a * m % 255 * 2 ^ t := by ring
  have hRE1 : 2 ^ t ≤ a * m % 255 * 2 ^ t := Nat.le_mul_of_pos_left _ (by omega)
  have hRE2 : a * m % 255 * 2 ^ t ≤ 254 * 2 ^ t := Nat.mul_le_mul_right _ (by omega)
  have hPbig : a * mant < 4294967296 := by
    have := Nat.mul_le_mul ha2 (Nat.le_of_lt_succ (by omega : mant < 16777215 + 1))
    omega
  have hps := pshift_cases (a * mant) hPbig
  simp only [prodTrunc]
  rcases hps with ⟨hs0, hsmall⟩ | ⟨hs1, hs8, hsl, hsu⟩
  · rw [hs0, if_pos rfl, hpowE]
    have hQl : a * m / 255 * (8388608 * 2 ^ t) = 8388608 * (a * m / 255 * 2 ^ t) := by ring
    have hg1 : 8388608 * (a * m / 255 * 2 ^ t) ≤ a * mant := by omega
    have hg2 : a * mant < 8388608 * (a * m / 255 * 2 ^ t) + 8388608 * 2 ^ t := by omega
    apply Nat.div_eq_of_lt_le
    · rw [hQl]; exact hg1
    · rw [show (a * m / 255 + 1) * (8388608 * 2 ^ t)
          = 8388608 * (a * m / 255 * 2 ^ t) + 8388608 * 2 ^ t from by ring]
      exact hg2
  · rw [if_neg (by omega)]
    have hSH : (2 : Nat) ^ pshift (a * mant) = 2 * 2 ^ (pshift (a * mant) - 1) := by
      rw [show pshift (a * mant) = pshift (a * mant) - 1 + 1 from by omega, pow_succ]
      rw [Nat.add_sub_cancel]
      ring
    have hH : (2 : Nat) ^ (pshift (a * mant) - 1) ≤ 128 := by
      calc (2 : Nat) ^ (pshift (a * mant) - 1) ≤ 2 ^ 7 :=
        Nat.pow_le_pow_right (by norm_num) (by omega)
      _ = 128 := by norm_num
    have hqr : 2 ^ pshift (a * mant) * (a * mant / 2 ^ pshift (a * mant))
        + a * mant % 2 ^ pshift (a * mant) = a * mant :=
      Nat.div_add_mod _ _
    have hrS : a * mant % 2 ^ pshift (a * mant) < 2 ^ pshift (a * mant) :=
      Nat.mod_lt _ (Nat.pos_pow_of_pos _ (by norm_num))
    have hDD : (2 : Nat) ^ (23 + t - pshift (a * mant)) * 2 ^ pshift (a * mant)
        = 8388608 * 2 ^ t := by
      rw [← pow_add, show 23 + t - pshift (a * mant) + pshift (a * mant) = 23 + t from by omega,
        hpowE]
    generalize hmpg : (if 2 ^ (pshift (a * mant) - 1) < a * mant % 2 ^ pshift (a * mant)
        then a * mant / 2 ^ pshift (a * mant) + 1
        else if a * mant % 2 ^ pshift (a * mant) < 2 ^ (pshift (a * mant) - 1)
        then a * mant / 2 ^ pshift (a * mant)
        else a * mant / 2 ^ pshift (a * mant) + a * mant / 2 ^ pshift (a * mant) % 2) = mp
    have hmpc : (mp = a * mant / 2 ^ pshift (a * mant)
          ∧ a * mant % 2 ^ pshift (a * mant) ≤ 2 ^ (pshift (a * mant) - 1))
        ∨ (mp = a * mant / 2 ^ pshift (a * mant) + 1
          ∧ 2 ^ (pshift (a * mant) - 1) ≤ a * mant % 2 ^ pshift (a * mant)) := by
      split_ifs at hmpg with hc1 hc2
      · exact Or.inr ⟨hmpg.symm, by omega⟩
      · exact Or.inl ⟨hmpg.symm, by omega⟩
      · rcases Nat.mod_two_eq_zero_or_one (a * mant / 2 ^ pshift (a * mant)) with he | he
        · rw [he] at hmpg
          exact Or.inl ⟨by omega, by omega⟩
        · rw [he] at hmpg
          exact Or.inr ⟨by omega, by omega⟩
    have hMS : 2 ^ pshift (a * mant) * mp ≤ a * mant + 2 ^ (pshift (a * mant) - 1)
        ∧ a * mant ≤ 2 ^ pshift (a * mant) * mp + 2 ^ (pshift (a * mant) - 1) := by
      rcases hmpc with ⟨he, hle⟩ | ⟨he, hge⟩
      · rw [he]
        constructor
        · omega
        · omega
      · rw [he, Nat.mul_succ]
        constructor
        · omega
        · omega
    have hb1 : 255 * (2 ^ pshift (a * mant) * mp)
        ≤ 8388608 * (a * m * 2 ^ t) + 127 * a + 255 * 2 ^ (pshift (a * mant) - 1) := by
      have h255 : 255 * (2 ^ pshift (a * mant) * mp)
          ≤ 255 * (a * mant) + 255 * 2 ^ (pshift (a * mant) - 1) := by omega
      omega
    have hb2 : 8388608 * (a * m * 2 ^ t)
        ≤ 255 * (2 ^ pshift (a * mant) * mp) + 127 * a + 255 * 2 ^ (pshift (a * mant) - 1) := by
      have h255 : 255 * (a * mant)
          ≤ 255 * (2 ^ pshift (a * mant) * mp) + 255 * 2 ^ (pshift (a * mant) - 1) := by omega
      omega
    have hg1 : 8388608 * (a * m / 255 * 2 ^ t) < 2 ^ pshift (a * mant) * mp := by omega
    have hg2 : 2 ^ pshift (a * mant) * mp
        < 8388608 * (a * m / 255 * 2 ^ t) + 8388608 * 2 ^ t := by omega
    have hlow : a * m / 255 * 2 ^ (23 + t - pshift (a * mant)) < mp := by
      have hx : 2 ^ pshift (a * mant) * (a * m / 255 * 2 ^ (23 + t - pshift (a * mant)))
          < 2 ^ pshift (a * mant) * mp := by
        rw [show 2 ^ pshift (a * mant) * (a * m / 255 * 2 ^ (23 + t - pshift (a * mant)))
            = a * m / 255 * (2 ^ (23 + t - pshift (a * mant)) * 2 ^ pshift (a * mant)) from by
          ring]
        rw [hDD]
        rw [show a * m / 255 * (8388608 * 2 ^ t) = 8388608 * (a * m / 255 * 2 ^ t) from by ring]
        exact hg1
      exact Nat.lt_of_mul_lt_mul_left hx
    have hhigh : mp < (a * m / 255 + 1) * 2 ^ (23 + t - pshift (a * mant)) := by
      have hx : 2 ^ pshift (a * mant) * mp
          < 2 ^ pshift (a * mant) * ((a * m / 255 + 1) * 2 ^ (23 + t - pshift (a * mant))) := by
        rw [show 2 ^ pshift (a * mant) * ((a * m / 255 + 1) * 2 ^ (23 + t - pshift (a * mant)))
            = (a * m / 255 + 1) * (2 ^ (23 + t - pshift (a * mant)) * 2 ^ pshift (a * mant)) from by
          ring]
        rw [hDD]
        rw [show (a * m / 255 + 1) * (8388608 * 2 ^ t)
            = 8388608 * (a * m / 255 * 2 ^ t) + 8388608 * 2 ^ t from by ring]
        exact hg2
      exact Nat.lt_of_mul_lt_mul_left hx
    apply Nat.div_eq_of_lt_le
    · exact Nat.le_of_lt hlow
    · exact hhigh

set_option maxRecDepth 4000 in
set_option maxHeartbeats 10000000 in
theorem chkDivAll_holds : chkDivAll 255 = true := by rfl

theorem chkDivRow_sound (a d : Nat) : ∀ n, chkDivRow a d n = true →
    ∀ k, 1 ≤ k → k ≤ n → chkPair a (k * d) = true := by
  intro n
  induction n with
  | zero => intro h k h1 h2; omega
  | succ n ih =>
    intro h k h1 h2
    simp only [chkDivRow, Bool.and_eq_true] at h
    by_cases he : k = n + 1
    · subst he; exact h.1
    · exact ih h.2 k h1 (by omega)

theorem chkDivAll_sound : ∀ n, chkDivAll n = true → ∀ a, 1 ≤ a → a ≤ n →
    chkDivRow a (255 / Nat.gcd a 255) (Nat.gcd a 255) = true := by
  intro n
  induction n with
  | zero => intro h a h1 h2; omega
  | succ n ih =>
    intro h a h1 h2
    simp only [chkDivAll, Bool.and_eq_true] at h
    by_cases he : a = n + 1
    · subst he; exact h.1
    · exact ih h.2 a h1 (by omega)

/-- Every pair `(a, m)` in `[1,255] × [1,255]` with `255 ∣ a * m` is listed
in the enumeration checked by `chkDivAll`: `m` is a positive multiple of
`255 / gcd a 255` with multiplier at most `gcd a 255`. -/
theorem divisible_repr (a m : Nat) (ha1 : 1 ≤ a) (hm1 : 1 ≤ m) (hm2 : m ≤ 255)
    (hdv : a * m % 255 = 0) :
    ∃ k, 1 ≤ k ∧ k ≤ Nat.gcd a 255 ∧ m = k * (255 / Nat.gcd a 255) := by
  have hg0 : 0 < Nat.gcd a 255 := Nat.gcd_pos_of_pos_right a (by norm_num)
  have hgdvd : Nat.gcd a 255 ∣ 255 := Nat.gcd_dvd_right a 255
  have ha' : Nat.gcd a 255 * (a / Nat.gcd a 255) = a :=
    Nat.mul_div_cancel' (Nat.gcd_dvd_left a 255)
  have h25 : Nat.gcd a 255 * (255 / Nat.gcd a 255) = 255 := Nat.mul_div_cancel' hgdvd
  have hco : Nat.Coprime (a / Nat.gcd a 255) (255 / Nat.gcd a 255) :=
    Nat.coprime_div_gcd_div_gcd hg0
  have h255 : (255 : Nat) ∣ a * m := Nat.dvd_of_mod_eq_zero hdv
  have h2 : Nat.gcd a 255 * (255 / Nat.gcd a 255) ∣ Nat.gcd a 255 * (a / Nat.gcd a 255 * m) := by
    rw [h25, ← Nat.mul_assoc, ha']
    exact h255
  have h3 : (255 / Nat.gcd a 255) ∣ (a / Nat.gcd a 255) * m :=
    (Nat.mul_dvd_mul_iff_left hg0).mp h2
  have hdd : (255 / Nat.gcd a 255) ∣ m := (Nat.Coprime.dvd_of_dvd_mul_left hco.symm) h3
  obtain ⟨k, hk⟩ := hdd
  have hdg : 0 < 255 / Nat.gcd a 255 :=
    Nat.div_pos (Nat.le_of_dvd (by norm_num) hgdvd) hg0
  refine ⟨k, ?_, ?_, by rw [hk]; ring⟩
  · by_contra hk0
    have : k = 0 := by omega
    subst this
    omega
  · have hle : 255 / Nat.gcd a 255 * k ≤ 255 / Nat.gcd a 255 * Nat.gcd a 255 := by
      rw [← hk]
      calc m ≤ 255 := hm2
        _ = 255 / Nat.gcd a 255 * Nat.gcd a 255 := by rw [Nat.mul_comm]; exact h25.symm
    exact Nat.le_of_mul_le_mul_left hle hdg

theorem prodTrunc_main (a m : Nat) (ha1 : 1 ≤ a) (ha2 : a ≤ 255) (hm1 : 1 ≤ m) (hm2 : m ≤ 255) :
    prodTrunc (fexp m) ((2 * (m * 2 ^ (23 + fexp m)) + 255) / 510) a = a * m / 255 := by
  have hf := fexp_bounds m (by omega) hm1
  by_cases hdv : a * m % 255 = 0
  · obtain ⟨k, hk1, hk2, hmk⟩ := divisible_repr a m ha1 hm1 hm2 hdv
    have hrow := chkDivAll_sound 255 chkDivAll_holds a ha1 ha2
    have hp := chkDivRow_sound a _ (Nat.gcd a 255) hrow k hk1 hk2
    rw [← hmk] at hp
    rw [chkPair_eq] at hp
    simpa using hp
  · exact prodTrunc_eq_of_ndvd (fexp m) _ a m ha1 ha2 hm1 hf.1 hf.2 rfl hdv

theorem scale_eq_spec (c l : Nat) (hc : c ≤ 255) (hl : l ≤ 255) :
    scaleChannel l c = specChannel l c := by
  simp only [scaleChannel, specChannel]
  by_cases hm : 255 - l = 0
  · rw [if_pos hm, hm]
    simp
  · rw [if_neg hm]
    by_cases ha : 255 - c = 0
    · rw [if_pos ha, ha]
      simp
    · rw [if_neg ha]
      rw [prodTrunc_main (255 - c) (255 - l) (by omega) (by omega) (by omega) (by omega)]

theorem scaleChannel_ge {c l : Nat} (hc : c ≤ 255) (hl : l ≤ 255) : c ≤ scaleChannel l c := by
  rw [scale_eq_spec c l hc hl]
  unfold specChannel
  have h1 : (255 - c) * (255 - l) ≤ (255 - c) * 255 :=
    Nat.mul_le_mul (Nat.le_refl _) (by omega)
  generalize hA : (255 - c) * (255 - l) = A at h1 ⊢
  omega

/-- Claim C4: for every channel value `c` and luma offset `l` in `[0, 255]`,
the `f32` computation of `auto_brighten` stores exactly
`255 - floor((255 - c) * (255 - l) / 255)` — bit-identical to the integer
reference formula, the fractional product truncated toward zero.  Proven by
bounding the accumulated rounding error strictly below the distance to the
nearest integer whenever the exact product is not a multiple of 255, and by
exhaustively checking the 1485 pairs whose product is a multiple of 255. -/
theorem c4_remap_bit_identical (c l : Nat) (hc : c ≤ 255) (hl : l ≤ 255) :
    scaleChannel l c = specChannel l c :=
  scale_eq_spec c l hc hl

/-- Witness for C4 at the concrete channel value 100 and offset 50. -/
theorem c4_remap_bit_identical_witness : scaleChannel 50 100 = specChannel 50 100 :=
  c4_remap_bit_identical 100 50 (by decide) (by decide)

/-- Claim C9: for a fixed channel value `c < 255`, the remapped value is
monotone in the luma offset: a larger offset lifts the channel at least as
much. -/
theorem c9_remap_monotone_in_offset (c l1 l2 : Nat) (hc : c < 255) (h12 : l1 < l2)
    (hl2 : l2 ≤ 255) : scaleChannel l1 c ≤ scaleChannel l2 c := by
  rw [scale_eq_spec c l1 (by omega) (by omega), scale_eq_spec c l2 (by omega) hl2]
  unfold specChannel
  have hmul : (255 - c) * (255 - l2) ≤ (255 - c) * (255 - l1) :=
    Nat.mul_le_mul (Nat.le_refl _) (by omega)
  generalize hA : (255 - c) * (255 - l2) = A at hmul ⊢
  generalize hB : (255 - c) * (255 - l1) = B at hmul ⊢
  omega

/-- Witness for C9 at channel value 10 and offsets 0 < 255. -/
theorem c9_remap_monotone_in_offset_witness : scaleChannel 0 10 ≤ scaleChannel 255 10 :=
  c9_remap_monotone_in_offset 10 0 255 (by decide) (by decide) (by decide)

/-- Claim C10: for every luma offset in `[0, 255]` and every buffer of 8-bit
channels, `auto_brighten` never darkens — each remapped channel is at least
the original (so a channel at 255 stays 255) — and the buffer's width,
height and pixel count are unchanged. -/
theorem c10_remap_never_darkens (img : Img) (l : Nat) (hl : l ≤ 255)
    (hb : ∀ p ∈ img.data, p.r ≤ 255 ∧ p.g ≤ 255 ∧ p.b ≤ 255) :
    (auto_brighten img l).width = img.width ∧
    (auto_brighten img l).height = img.height ∧
    (auto_brighten img l).data.length = img.data.length ∧
    List.Forall₂ (fun p q => p.r ≤ q.r ∧ p.g ≤ q.g ∧ p.b ≤ q.b)
      img.data (auto_brighten img l).data := by
  refine ⟨rfl, rfl, by simp [auto_brighten], ?_⟩
  show List.Forall₂ _ img.data (img.data.map (scalePixel l))
  have hgen : ∀ (d : List Rgb), (∀ p ∈ d, p.r ≤ 255 ∧ p.g ≤ 255 ∧ p.b ≤ 255) →
      List.Forall₂ (fun p q => p.r ≤ q.r ∧ p.g ≤ q.g ∧ p.b ≤ q.b) d (d.map (scalePixel l)) := by
    intro d hd
    induction d with
    | nil => exact List.Forall₂.nil
    | cons p rest ih =>
      simp only [List.map_cons]
      refine List.Forall₂.cons ?_ (ih (fun q hq => hd q (List.mem_cons_of_mem _ hq)))
      obtain ⟨h1, h2, h3⟩ := hd p (List.mem_cons_self _ _)
      exact ⟨scaleChannel_ge h1 hl, scaleChannel_ge h2 hl, scaleChannel_ge h3 hl⟩
  exact hgen img.data hb

/-- Witness for C10 on a concrete 1 × 1 buffer at offset 100. -/
theorem c10_remap_never_darkens_witness :
    (auto_brighten ⟨1, 1, [⟨10, 20, 30⟩]⟩ 100).width = (⟨1, 1, [⟨10, 20, 30⟩]⟩ : Img).width :=
  (c10_remap_never_darkens ⟨1, 1, [⟨10, 20, 30⟩]⟩ 100 (by decide) (by decide)).1
